import Mathlib

/-!
Verification development for the `umsrs` message-statistics aggregator
(`src/main.rs`, `src/datastore.rs`).

The Rust code is shallowly embedded:
* `HashMap` is modelled as an association list with first-match lookup
  (`hmGet`) and replace-or-append insertion (`hmInsert`); a freshly built
  map never holds two bindings of one key, matching `HashMap` semantics.
* machine integers (`u16`, `u32`, `u64`, `i64`) are `Nat`/`Int`; the one
  place where width matters, `timestamp_to_uday`'s `try_into::<u16>()`,
  is modelled by an explicit range check returning `Option`.
* fallible operations (a `panic!`/`expect` in the source) return `Option`.
* file I/O is modelled by passing the cache file's contents
  (`Option (List Nat)`, `none` = file absent) explicitly.
-/

/-- First-match lookup in an association list; models `HashMap::get`. -/
def hmGet {κ ν : Type} [DecidableEq κ] : List (κ × ν) → κ → Option ν
  | [], _ => none
  | (k, v) :: rest, key => if k = key then some v else hmGet rest key

/-- Replace-or-append insertion; models `HashMap::insert` (the key keeps a
single binding when the input map had a single binding for it). -/
def hmInsert {κ ν : Type} [DecidableEq κ] : List (κ × ν) → κ → ν → List (κ × ν)
  | [], key, val => [(key, val)]
  | (k, v) :: rest, key, val =>
    if k = key then (key, val) :: rest else (k, v) :: hmInsert rest key val

theorem hmGet_hmInsert_self {κ ν : Type} [DecidableEq κ] (l : List (κ × ν)) (k : κ) (v : ν) :
    hmGet (hmInsert l k v) k = some v := by
  induction l with
  | nil => simp [hmGet, hmInsert]
  | cons hd tl ih =>
    obtain ⟨k0, v0⟩ := hd
    by_cases h : k0 = k
    · simp [hmGet, hmInsert, h]
    · simp [hmGet, hmInsert, h, ih]

theorem hmGet_hmInsert_ne {κ ν : Type} [DecidableEq κ] (l : List (κ × ν)) (k k' : κ) (v : ν)
    (h : k' ≠ k) : hmGet (hmInsert l k v) k' = hmGet l k' := by
  induction l with
  | nil =>
    have hne : ¬(k = k') := fun hh => h hh.symm
    simp [hmGet, hmInsert, hne]
  | cons hd tl ih =>
    obtain ⟨k0, v0⟩ := hd
    by_cases h0 : k0 = k
    · subst h0
      have hne : ¬(k0 = k') := fun hh => h hh.symm
      simp [hmGet, hmInsert, hne]
    · simp [hmGet, hmInsert, h0, ih]

/-- Bumping one key's counter raises the sum of all bound values by one,
whatever the shape of the association list. -/
theorem hmInsert_bump_sum {κ : Type} [DecidableEq κ] (l : List (κ × Nat)) (k : κ) :
    ((hmInsert l k ((hmGet l k).getD 0 + 1)).map Prod.snd).sum
      = (l.map Prod.snd).sum + 1 := by
  induction l with
  | nil => simp [hmGet, hmInsert]
  | cons hd tl ih =>
    obtain ⟨k0, v0⟩ := hd
    by_cases h : k0 = k
    · simp [hmGet, hmInsert, h]
      omega
    · simp [hmGet, hmInsert, h] at ih ⊢
      omega

/-- Keys after insertion: unchanged when the key was present, the key
appended when it was absent. -/
theorem hmInsert_keys {κ ν : Type} [DecidableEq κ] (l : List (κ × ν)) (k : κ) (v : ν) :
    (hmInsert l k v).map Prod.fst
      = if (hmGet l k).isSome then l.map Prod.fst else l.map Prod.fst ++ [k] := by
  induction l with
  | nil => simp [hmGet, hmInsert]
  | cons hd tl ih =>
    obtain ⟨k0, v0⟩ := hd
    by_cases h : k0 = k
    · simp [hmGet, hmInsert, h]
    · simp [hmGet, hmInsert, h, ih]
      by_cases h2 : (hmGet tl k).isSome <;> simp [h2]

theorem hmGet_isSome_of_mem_keys {κ ν : Type} [DecidableEq κ] (l : List (κ × ν)) (k : κ)
    (hmem : k ∈ l.map Prod.fst) : (hmGet l k).isSome := by
  induction l with
  | nil => simp at hmem
  | cons hd tl ih =>
    obtain ⟨k0, v0⟩ := hd
    by_cases he : k0 = k
    · simp [hmGet, he]
    · have h1 : k ∈ tl.map Prod.fst := by
        simp only [List.map_cons] at hmem
        rcases List.mem_cons.mp hmem with h0 | h0
        · exact absurd h0.symm he
        · exact h0
      simp [hmGet, he, ih h1]

theorem hmInsert_keys_nodup {κ ν : Type} [DecidableEq κ] (l : List (κ × ν)) (k : κ) (v : ν)
    (h : (l.map Prod.fst).Nodup) : ((hmInsert l k v).map Prod.fst).Nodup := by
  rw [hmInsert_keys]
  by_cases hs : (hmGet l k).isSome
  · simpa [hs]
  · have hk : k ∉ l.map Prod.fst := fun hmem => hs (hmGet_isSome_of_mem_keys l k hmem)
    rw [if_neg hs, List.nodup_append]
    refine ⟨h, List.nodup_singleton k, fun a ha hb => ?_⟩
    simp only [List.mem_singleton] at hb
    exact hk (hb ▸ ha)

/-! ## Data model (src/datastore.rs lines 15-27, plus the message shape the
code reads off `serenity::model::prelude::Message`) -/

/-- The fields of a `serenity` message author that `process_message` and the
ingestion loop consult: numeric id, discriminator, display name, avatar. -/
structure Author where
  id : Nat
  discriminator : Nat
  name : String
  avatar_url : Option String
  deriving DecidableEq

/-- The fields of a `serenity` message the program reads: the message id
(`u64`, monotone with send time on the platform), the author and the
timestamp in Unix seconds (`i64`). -/
structure Message where
  id : Nat
  author : Author
  timestamp : Int
  deriving DecidableEq

/-- Per-webhook record: avatar URL captured at first sight plus the
day-indexed message counts (src/datastore.rs lines 15-19). -/
structure WebhookData where
  avatar_url : String
  msg_counts : List (Nat × Nat)
  deriving DecidableEq

/-- The aggregate store (src/datastore.rs lines 21-27): observed day range,
per-user and per-webhook daily counts, and per-channel fetch cursors. -/
structure Datastore where
  range : Option Nat × Option Nat
  user_data : List (Nat × List (Nat × Nat))
  wh_data : List (String × WebhookData)
  last_fetches : List (Nat × Int)
  deriving DecidableEq

/-- The `Default` instance: empty range, empty maps (derived in the source). -/
def Datastore.default : Datastore :=
  { range := (none, none), user_data := [], wh_data := [], last_fetches := [] }

/-- Fallback avatar, src/datastore.rs line 53. -/
def DEFAULT_PFP : String := "https://cdn.discordapp.com/embed/avatars/0.png"

/-! ## Day index (src/datastore.rs lines 254-264) -/

/-- Models `timestamp_to_uday`: three successive truncating `i64` divisions
(`Int.tdiv` is Rust's `/`), then `try_into::<u16>()`; the `expect` on an
out-of-range result is modelled as `none`. -/
def timestamp_to_uday (ts : Int) : Option Nat :=
  let d := ((ts.tdiv 60).tdiv 60).tdiv 24
  if 0 ≤ d ∧ d ≤ 65535 then some d.toNat else none

/-- Left-pad a numeral to two digits, as the `time` crate's `[month]`/`[day]`
format components do. -/
def pad2 (n : Nat) : String := if n < 10 then "0" ++ toString n else toString n

/-- Left-pad a numeral to four digits, as the `time` crate's `[year]`
format component does. -/
def pad4 (n : Nat) : String :=
  if n < 10 then "000" ++ toString n
  else if n < 100 then "00" ++ toString n
  else if n < 1000 then "0" ++ toString n
  else toString n

/-- Models `uday_to_date`: the civil-from-days calendar conversion performed
by `time::OffsetDateTime::from_unix_timestamp(uday * 86400)` followed by
formatting as `[year]-[month]-[day]`. Standard era-based algorithm; `uday`
is a day count since 1970-01-01. -/
def uday_to_date (uday : Nat) : String :=
  let z := uday + 719468
  let era := z / 146097
  let doe := z % 146097
  let yoe := (doe - doe / 1460 + doe / 36524 - doe / 146096) / 365
  let doy := doe - (365 * yoe + yoe / 4 - yoe / 100)
  let mp := (5 * doy + 2) / 153
  let d := doy - (153 * mp + 2) / 5 + 1
  let m := if mp < 10 then mp + 3 else mp - 9
  let y := yoe + era * 400 + (if m ≤ 2 then 1 else 0)
  pad4 y ++ "-" ++ pad2 m ++ "-" ++ pad2 d

/-! ## Bucket table (src/datastore.rs lines 229-252) -/

/-- The fixed threshold table of `categorize_num`. -/
def categories : List (Nat × String) :=
  [(10, "<10"), (25, "10-25"), (50, "25-50"), (100, "50-100"),
   (250, "100-250"), (500, "250-500"), (1000, "500-1000"), (2500, "1000-2500"),
   (5000, "2500-5000"), (10000, "5000-10,000"), (25000, "10,000-25,000"),
   (50000, "25,000-50,000")]

/-- The `for (limit, label) in categories { if n < *limit { return label } }`
loop: first match under strictly-less-than, falling through to `"50,000+"`. -/
def catScan (n : Nat) : List (Nat × String) → String
  | [] => "50,000+"
  | (limit, label) :: rest => if n < limit then label else catScan n rest

def categorize_num (n : Nat) : String := catScan n categories

/-! ## Aggregate store operations (src/datastore.rs lines 85-126) -/

/-- Models `Datastore::process_message` (src/datastore.rs lines 85-126).
The day number is computed first (`none` models the fatal `expect` on an
out-of-range timestamp), the range is widened with
`min(range.0.unwrap_or(u16::MAX), uday)` / `max(range.1.unwrap_or(u16::MIN), uday)`,
and then one count is bumped.  The source's get-or-insert-empty-then-get
dance on the `HashMap` entry is modelled extensionally: read the entry
(defaulting to the fresh value the source would insert), bump the day's
count, and write the entry back. -/
def Datastore.process_message (ds : Datastore) (msg : Message) : Option Datastore :=
  match timestamp_to_uday msg.timestamp with
  | none => none
  | some uday =>
    let range0 := some (min ((ds.range.1).getD 65535) uday)
    let range1 := some (max ((ds.range.2).getD 0) uday)
    if msg.author.discriminator ≠ 0 then
      -- For regular users or bots.
      let user_id := msg.author.id
      let entry := (hmGet ds.user_data user_id).getD []
      let entry2 := hmInsert entry uday ((hmGet entry uday).getD 0 + 1)
      some { ds with range := (range0, range1),
                     user_data := hmInsert ds.user_data user_id entry2 }
    else
      -- For messages sent using webhooks.
      let name := msg.author.name
      let wd := (hmGet ds.wh_data name).getD
        { avatar_url := msg.author.avatar_url.getD DEFAULT_PFP, msg_counts := [] }
      let wd2 := { wd with
        msg_counts := hmInsert wd.msg_counts uday ((hmGet wd.msg_counts uday).getD 0 + 1) }
      some { ds with range := (range0, range1), wh_data := hmInsert ds.wh_data name wd2 }

/-- Folding `process_message` over a batch of messages, as the ingestion
loop's `for i in messages { datastore.process_message(&i) }` does. -/
def Datastore.processAll (ds : Datastore) : List Message → Option Datastore
  | [] => some ds
  | m :: rest => (ds.process_message m).bind fun ds2 => ds2.processAll rest

/-- The count recorded for user `uid` on day `day` (0 when absent). -/
def Datastore.userCount (ds : Datastore) (uid day : Nat) : Nat :=
  (hmGet ((hmGet ds.user_data uid).getD []) day).getD 0

/-- The count recorded for webhook name `name` on day `day` (0 when absent). -/
def Datastore.whCount (ds : Datastore) (name : String) (day : Nat) : Nat :=
  match hmGet ds.wh_data name with
  | some w => (hmGet w.msg_counts day).getD 0
  | none => 0

/-- Sum of all per-day counts stored for user `uid`. -/
def Datastore.userTotal (ds : Datastore) (uid : Nat) : Nat :=
  (((hmGet ds.user_data uid).getD []).map Prod.snd).sum

/-- Sum of all per-day counts stored for webhook name `name`. -/
def Datastore.whTotal (ds : Datastore) (name : String) : Nat :=
  match hmGet ds.wh_data name with
  | some w => (w.msg_counts.map Prod.snd).sum
  | none => 0

/-! ## Report generation (src/datastore.rs lines 128-227) -/

/-- Per-participant row statistics (src/datastore.rs lines 176-180); the
source stores the rendered decimal strings, as the CSV writer needs them. -/
structure MessageStats where
  total : Nat
  daily : List String
  totals : List String
  deriving DecidableEq

/-- The body of `MessageStats::generate`'s `for i in (range.0)..=(range.1)`
loop, one recursive step per day, threading the accumulator. -/
def MessageStats.genGo (data : List (Nat × Nat)) : List Nat → MessageStats → MessageStats
  | [], out => out
  | i :: rest, out =>
    let entry := (hmGet data i).getD 0
    MessageStats.genGo data rest
      { total := out.total + entry,
        daily := out.daily ++ [toString entry],
        totals := out.totals ++ [toString (out.total + entry)] }

/-- Models `MessageStats::generate` (src/datastore.rs lines 182-199): iterate
over the inclusive day range (`hi + 1 - lo` days, clamped at zero as Rust's
`lo..=hi` is when `lo > hi`), pushing the day's count and the running total.
The `Vec::with_capacity` size hint of the source has no semantic content and
is not modelled. -/
def MessageStats.generate (data : List (Nat × Nat)) (range : Nat × Nat) : MessageStats :=
  MessageStats.genGo data (List.range' range.1 (range.2 + 1 - range.1))
    { total := 0, daily := [], totals := [] }

/-- The fields of a resolved user profile that `generate_user_header`
consults (`serenity`'s `User`): tag, avatar and the bot flag. -/
structure UserProfile where
  tag : String
  avatar_url : Option String
  bot : Bool
  deriving DecidableEq

/-- Models `generate_user_header` (src/datastore.rs lines 202-227); the
external `user_id.to_user(con)` profile lookup is passed in as `resolve`
(`none` models a failed lookup). -/
def generate_user_header (user_id : Nat) (resolve : Nat → Option UserProfile)
    (total : Nat) : List String :=
  match resolve user_id with
  | some u => [u.tag, if u.bot then "Bots" else categorize_num total,
               u.avatar_url.getD DEFAULT_PFP]
  | none => [toString user_id, categorize_num total, DEFAULT_PFP]

/-- Models the records `Datastore::write_out` (src/datastore.rs lines
130-173) emits: the shared header then, per user and per webhook, the daily
row and the totals row.  File creation and the CSV serialization are
abstracted away; the result is (header, daily rows, totals rows). -/
def Datastore.write_out (ds : Datastore) (resolve : Nat → Option UserProfile) :
    List String × List (List String) × List (List String) :=
  let low_bound := (ds.range.1).getD 0
  let high_bound := (ds.range.2).getD 0
  let header := ["Username", "Category", "PFP"]
    ++ (List.range' low_bound (high_bound + 1 - low_bound)).map uday_to_date
  let userRows := ds.user_data.map fun kv =>
    let stats := MessageStats.generate kv.2 (low_bound, high_bound)
    let row_header := generate_user_header kv.1 resolve stats.total
    (row_header ++ stats.daily, row_header ++ stats.totals)
  let whRows := ds.wh_data.map fun kv =>
    let stats := MessageStats.generate kv.2.msg_counts (low_bound, high_bound)
    let row_header := ["(NQN) " ++ kv.1, "NQN Webhooks", kv.2.avatar_url]
    (row_header ++ stats.daily, row_header ++ stats.totals)
  (header, (userRows ++ whRows).map Prod.fst, (userRows ++ whRows).map Prod.snd)

/-! ## Persistence (src/datastore.rs lines 55-82)

`save_to_cache` streams a CBOR encoding of the store into the cache file via
`ciborium::ser::into_writer`; `load_from_cache` reads it back with
`ciborium::de::from_reader`.  The external CBOR layer is modelled at the
token level: the file is a `List Nat` of tokens, every integer is one token,
and strings and maps are length-prefixed sequences, mirroring CBOR's
self-describing layout (the byte-level packing of individual integers is
abstracted to one token per integer). -/

def encNat (n : Nat) : List Nat := [n]

def decNat : List Nat → Option (Nat × List Nat)
  | [] => none
  | n :: rest => some (n, rest)

def encInt (i : Int) : List Nat :=
  if 0 ≤ i then [0, i.toNat] else [1, (-i).toNat]

def decInt : List Nat → Option (Int × List Nat)
  | 0 :: n :: rest => some ((n : Int), rest)
  | 1 :: n :: rest => some (-(n : Int), rest)
  | _ => none

def encOptNat : Option Nat → List Nat
  | none => [0]
  | some n => [1, n]

def decOptNat : List Nat → Option (Option Nat × List Nat)
  | 0 :: rest => some (none, rest)
  | 1 :: n :: rest => some (some n, rest)
  | _ => none

def encStr (s : String) : List Nat :=
  s.data.length :: s.data.map Char.toNat

/-- Decode `n` characters. -/
def decChars : Nat → List Nat → Option (List Char × List Nat)
  | 0, rest => some ([], rest)
  | _ + 1, [] => none
  | n + 1, c :: rest =>
    (decChars n rest).map fun (cs, r) => (Char.ofNat c :: cs, r)

def decStr (l : List Nat) : Option (String × List Nat) :=
  match l with
  | [] => none
  | n :: rest => (decChars n rest).map fun (cs, r) => (String.mk cs, r)

def encListWith {α : Type} (f : α → List Nat) (l : List α) : List Nat :=
  l.length :: (l.map f).flatten

/-- Decode `n` elements with the element decoder `f`. -/
def decElems {α : Type} (f : List Nat → Option (α × List Nat)) :
    Nat → List Nat → Option (List α × List Nat)
  | 0, rest => some ([], rest)
  | n + 1, rest =>
    (f rest).bind fun (a, r) =>
      (decElems f n r).map fun (as_, r2) => (a :: as_, r2)

def decListWith {α : Type} (f : List Nat → Option (α × List Nat)) (l : List Nat) :
    Option (List α × List Nat) :=
  match l with
  | [] => none
  | n :: rest => decElems f n rest

def encNatPair (p : Nat × Nat) : List Nat := encNat p.1 ++ encNat p.2

def decNatPair (l : List Nat) : Option ((Nat × Nat) × List Nat) :=
  (decNat l).bind fun (a, r) => (decNat r).map fun (b, r2) => ((a, b), r2)

def encUserEntry (p : Nat × List (Nat × Nat)) : List Nat :=
  encNat p.1 ++ encListWith encNatPair p.2

def decUserEntry (l : List Nat) : Option ((Nat × List (Nat × Nat)) × List Nat) :=
  (decNat l).bind fun (k, r) =>
    (decListWith decNatPair r).map fun (m, r2) => ((k, m), r2)

def encWhEntry (p : String × WebhookData) : List Nat :=
  encStr p.1 ++ encStr p.2.avatar_url ++ encListWith encNatPair p.2.msg_counts

def decWhEntry (l : List Nat) : Option ((String × WebhookData) × List Nat) :=
  (decStr l).bind fun (k, r) =>
    (decStr r).bind fun (av, r2) =>
      (decListWith decNatPair r2).map fun (m, r3) =>
        ((k, { avatar_url := av, msg_counts := m }), r3)

def encFetchEntry (p : Nat × Int) : List Nat := encNat p.1 ++ encInt p.2

def decFetchEntry (l : List Nat) : Option ((Nat × Int) × List Nat) :=
  (decNat l).bind fun (k, r) => (decInt r).map fun (i, r2) => ((k, i), r2)

/-- Token-level encoding of a whole `Datastore`, field by field in
declaration order, as `serde` derives it. -/
def encDatastore (ds : Datastore) : List Nat :=
  encOptNat ds.range.1 ++ encOptNat ds.range.2
    ++ encListWith encUserEntry ds.user_data
    ++ encListWith encWhEntry ds.wh_data
    ++ encListWith encFetchEntry ds.last_fetches

def decDatastore (l : List Nat) : Option (Datastore × List Nat) :=
  (decOptNat l).bind fun (r0, l1) =>
    (decOptNat l1).bind fun (r1, l2) =>
      (decListWith decUserEntry l2).bind fun (ud, l3) =>
        (decListWith decWhEntry l3).bind fun (wd, l4) =>
          (decListWith decFetchEntry l4).map fun (lf, l5) =>
            ({ range := (r0, r1), user_data := ud, wh_data := wd,
               last_fetches := lf }, l5)

/-- Models `Datastore::save_to_cache` (src/datastore.rs lines 69-82) against
an explicit cache file.  `createFail` models `File::create` returning `Err`
(the `?` propagates it and the file is untouched); otherwise `File::create`
first truncates the file to empty, and `ciborium::ser::into_writer` then
streams the encoding into it.  `budget = some k` models an I/O failure after
`k` tokens have been written (the `Io` arm returns the error; the partially
streamed tokens remain in the file); `budget = none` models an error-free
write. -/
def Datastore.save_to_cache (ds : Datastore) (file : Option (List Nat))
    (createFail : Bool) (budget : Option Nat) :
    Except Unit Unit × Option (List Nat) :=
  if createFail then (Except.error (), file)
  else
    let enc := encDatastore ds
    match budget with
    | none => (Except.ok (), some enc)
    | some k =>
      if k < enc.length then (Except.error (), some (enc.take k))
      else (Except.ok (), some enc)

/-- Models `Datastore::load_from_cache` (src/datastore.rs lines 57-66): a
missing file yields `none`; otherwise `ciborium::de::from_reader(fd).ok()`,
i.e. a parse failure also yields `none`. -/
def Datastore.load_from_cache (file : Option (List Nat)) : Option Datastore :=
  match file with
  | none => none
  | some tokens => (decDatastore tokens).map Prod.fst

/-! ## Ingestion loop (src/main.rs lines 107-151) -/

/-- Modelled from the spec: `Datastore::get_last_fetch`, the cursor read the
loop in `src/main.rs` line 113 calls, is absent from the sources provided;
per the spec's `getCursor(channelId) -> messageId | absent`, an absent
cursor starts the fetch from the beginning, i.e. cursor 0. -/
def Datastore.get_last_fetch (ds : Datastore) (ch : Nat) : Int :=
  (hmGet ds.last_fetches ch).getD 0

/-- Modelled from the spec: `Datastore::save_last_fetch`, the cursor write at
`src/main.rs` line 146, is absent from the sources provided; per the spec's
`setCursor(channelId, messageId)` it stores the cursor in `last_fetches`. -/
def Datastore.save_last_fetch (ds : Datastore) (ch : Nat) (mid : Int) : Datastore :=
  { ds with last_fetches := hmInsert ds.last_fetches ch mid }

/-- Stable insertion into a timestamp-sorted list: `m` goes after every
element whose timestamp is ≤ its own, so earlier-arrived equal keys stay
first. -/
def insertTs (m : Message) : List Message → List Message
  | [] => [m]
  | x :: rest =>
    if x.timestamp ≤ m.timestamp then x :: insertTs m rest else m :: x :: rest

/-- Models `messages.sort_by_key(|m| m.timestamp)`.  Rust's `sort_by_key`
is a stable sort, and a stable sort by a fixed key is a unique function of
its input, so the stable insertion sort used here computes exactly it. -/
def sortTs : List Message → List Message
  | [] => []
  | m :: rest => insertTs m (sortTs rest)

/-- Models the per-channel `loop` of `ready` (src/main.rs lines 114-143).
`pages` is the successive `Ok` results of `ch.messages(after(last_mid))`
(an `Err` result only sleeps and retries, leaving every piece of state
unchanged, so retries need no representation); an exhausted supply stands
for the empty page that breaks the loop.  Per iteration: sort the page by
timestamp (`sort_by_key`, modelled by `sortTs`), take the chronologically
last message's id as the new cursor (break if the page is empty), process
every message of the page, then poll the interrupt channel (`sched` holds
the successive `rx.try_recv().is_ok()` results) — note the source sets the
flag but does not break the inner loop.  Returns the datastore, the final
cursor, the interrupt flag and the unconsumed part of the schedule; `none`
models a `process_message` panic. -/
def chanLoop (ds : Datastore) : List (List Message) → Int → Bool → List Bool →
    Option (Datastore × Int × Bool × List Bool)
  | [], cursor, intr, sched => some (ds, cursor, intr, sched)
  | page :: rest, cursor, intr, sched =>
    let sorted := sortTs page
    match sorted.getLast? with
    | none => some (ds, cursor, intr, sched)
    | some m =>
      (ds.processAll sorted).bind fun ds2 =>
        let sig := sched.headD false
        chanLoop ds2 rest (m.id : Int) (intr || sig) (sched.tail)

/-- Models the `for ch in chans` traversal of `ready` (src/main.rs lines
108-151): per channel, run the page loop from the channel's saved cursor,
save the resulting cursor, and stop if the interrupt flag was raised. -/
def guildLoop (ds : Datastore) : List (Nat × List (List Message)) → List Bool →
    Option Datastore
  | [], _ => some ds
  | (chId, pages) :: rest, sched =>
    (chanLoop ds pages (ds.get_last_fetch chId) false sched).bind
      fun (ds2, cursor, intr, sched2) =>
        let ds3 := ds2.save_last_fetch chId cursor
        if intr then some ds3 else guildLoop ds3 rest sched2

/-- Greatest message id occurring in a sequence of pages (0 if none). -/
def maxId (pages : List (List Message)) : Nat :=
  ((pages.flatten).map Message.id).foldr max 0

/-! ## Helper lemmas about the stable sort, last elements and maxima -/

theorem mem_insertTs (m x : Message) : ∀ l, (x ∈ insertTs m l ↔ x = m ∨ x ∈ l) := by
  intro l
  induction l with
  | nil => simp [insertTs]
  | cons y rest ih =>
    by_cases h : y.timestamp ≤ m.timestamp
    · simp [insertTs, h, ih]
      tauto
    · simp [insertTs, h]

theorem mem_sortTs (x : Message) : ∀ l, (x ∈ sortTs l ↔ x ∈ l) := by
  intro l
  induction l with
  | nil => simp [sortTs]
  | cons m rest ih => simp [sortTs, mem_insertTs, ih]

theorem sortTs_eq_nil_iff : ∀ l, sortTs l = [] ↔ l = [] := by
  intro l
  cases l with
  | nil => simp [sortTs]
  | cons m rest =>
    simp only [sortTs]
    constructor
    · intro h
      have : m ∈ insertTs m (sortTs rest) := (mem_insertTs m m _).mpr (Or.inl rfl)
      rw [h] at this
      exact absurd this (List.not_mem_nil m)
    · intro h
      exact absurd h (List.cons_ne_nil m rest)

theorem insertTs_sorted (m : Message) :
    ∀ l, List.Pairwise (fun a b : Message => a.timestamp ≤ b.timestamp) l →
      List.Pairwise (fun a b : Message => a.timestamp ≤ b.timestamp) (insertTs m l) := by
  intro l
  induction l with
  | nil => intro _; simp [insertTs]
  | cons y rest ih =>
    intro hp
    obtain ⟨hy, hrest⟩ := List.pairwise_cons.mp hp
    by_cases h : y.timestamp ≤ m.timestamp
    · rw [insertTs, if_pos h]
      refine List.pairwise_cons.mpr ⟨fun z hz => ?_, ih hrest⟩
      rcases (mem_insertTs m z rest).mp hz with h0 | h0
      · exact h0 ▸ h
      · exact hy z h0
    · rw [insertTs, if_neg h]
      refine List.pairwise_cons.mpr ⟨fun z hz => ?_, hp⟩
      rcases List.mem_cons.mp hz with h0 | h0
      · subst h0; omega
      · exact le_trans (by omega) (hy z h0)

theorem sortTs_sorted :
    ∀ l, List.Pairwise (fun a b : Message => a.timestamp ≤ b.timestamp) (sortTs l) := by
  intro l
  induction l with
  | nil => simp [sortTs]
  | cons m rest ih => exact insertTs_sorted m _ ih

theorem mem_of_getLast?_eq {α : Type} : ∀ (l : List α) (a : α), l.getLast? = some a → a ∈ l := by
  intro l
  induction l with
  | nil => intro a ha; simp at ha
  | cons b tl ih =>
    intro a ha
    cases tl with
    | nil =>
      simp at ha
      simp [ha]
    | cons c tl2 =>
      rw [List.getLast?_cons_cons] at ha
      exact List.mem_cons_of_mem b (ih a ha)

/-- In a `Pairwise R` list the last element is reached by `R` from every
other element. -/
theorem pairwise_getLast {α : Type} {R : α → α → Prop} :
    ∀ (l : List α), l.Pairwise R → ∀ a, l.getLast? = some a → ∀ x ∈ l, x = a ∨ R x a := by
  intro l
  induction l with
  | nil => intro _ a ha; simp at ha
  | cons b tl ih =>
    intro hp a ha x hx
    cases tl with
    | nil =>
      simp at ha hx
      subst ha; subst hx
      exact Or.inl rfl
    | cons c tl2 =>
      rw [List.getLast?_cons_cons] at ha
      obtain ⟨hb, htl⟩ := List.pairwise_cons.mp hp
      rcases List.mem_cons.mp hx with h0 | h0
      · subst h0
        exact Or.inr (hb a (mem_of_getLast?_eq _ a ha))
      · exact ih htl a ha x h0

theorem le_foldr_max (l : List Nat) (x : Nat) (h : x ∈ l) : x ≤ l.foldr max 0 := by
  induction l with
  | nil => simp at h
  | cons y rest ih =>
    rcases List.mem_cons.mp h with h0 | h0
    · subst h0; simp [List.foldr_cons]
    · have := ih h0
      simp [List.foldr_cons]
      omega

theorem foldr_max_le (l : List Nat) (x : Nat) (h : ∀ y ∈ l, y ≤ x) : l.foldr max 0 ≤ x := by
  induction l with
  | nil => simp
  | cons y rest ih =>
    have h1 := h y (List.mem_cons_self y rest)
    have h2 := ih fun z hz => h z (List.mem_cons_of_mem y hz)
    simp [List.foldr_cons]
    omega

theorem foldr_max_eq (l : List Nat) (x : Nat) (hx : x ∈ l) (hall : ∀ y ∈ l, y ≤ x) :
    l.foldr max 0 = x :=
  le_antisymm (foldr_max_le l x hall) (le_foldr_max l x hx)

theorem foldr_max_append (a b : List Nat) :
    (a ++ b).foldr max 0 = max (a.foldr max 0) (b.foldr max 0) := by
  induction a with
  | nil => simp
  | cons y rest ih =>
    simp [List.foldr_cons, ih]
    omega

/-! ## Characterizations of process_message -/

theorem process_message_some (ds : Datastore) (msg : Message) (ds' : Datastore)
    (h : ds.process_message msg = some ds') :
    ∃ d, timestamp_to_uday msg.timestamp = some d := by
  unfold Datastore.process_message at h
  cases hu : timestamp_to_uday msg.timestamp with
  | none => rw [hu] at h; exact absurd h (by simp)
  | some d => exact ⟨d, rfl⟩

theorem uday_le (ts : Int) (d : Nat) (h : timestamp_to_uday ts = some d) : d ≤ 65535 := by
  unfold timestamp_to_uday at h
  by_cases hc : 0 ≤ ((ts.tdiv 60).tdiv 60).tdiv 24 ∧ ((ts.tdiv 60).tdiv 60).tdiv 24 ≤ 65535
  · rw [if_pos hc] at h
    obtain ⟨h0, h1⟩ := hc
    have := Option.some.inj h
    omega
  · rw [if_neg hc] at h
    exact absurd h (by simp)

theorem process_message_user_eq (ds : Datastore) (msg : Message) (d : Nat)
    (hd : timestamp_to_uday msg.timestamp = some d)
    (hdisc : msg.author.discriminator ≠ 0) :
    ds.process_message msg = some
      { range := (some (min ((ds.range.1).getD 65535) d),
                  some (max ((ds.range.2).getD 0) d)),
        user_data := hmInsert ds.user_data msg.author.id
          (hmInsert ((hmGet ds.user_data msg.author.id).getD [])
            d ((hmGet ((hmGet ds.user_data msg.author.id).getD []) d).getD 0 + 1)),
        wh_data := ds.wh_data,
        last_fetches := ds.last_fetches } := by
  unfold Datastore.process_message
  rw [hd]
  simp [hdisc]

theorem process_message_wh_eq (ds : Datastore) (msg : Message) (d : Nat)
    (hd : timestamp_to_uday msg.timestamp = some d)
    (hdisc : msg.author.discriminator = 0) :
    ds.process_message msg = some
      { range := (some (min ((ds.range.1).getD 65535) d),
                  some (max ((ds.range.2).getD 0) d)),
        user_data := ds.user_data,
        wh_data :=
          (let wd := (hmGet ds.wh_data msg.author.name).getD
            { avatar_url := msg.author.avatar_url.getD DEFAULT_PFP, msg_counts := [] }
           hmInsert ds.wh_data msg.author.name
            { wd with msg_counts :=
                hmInsert wd.msg_counts d ((hmGet wd.msg_counts d).getD 0 + 1) }),
        last_fetches := ds.last_fetches } := by
  unfold Datastore.process_message
  rw [hd]
  simp [hdisc]

/-- Step effect of `process_message` on `userCount`. -/
theorem process_message_userCount (ds : Datastore) (msg : Message) (ds' : Datastore) (d : Nat)
    (h : ds.process_message msg = some ds')
    (hd : timestamp_to_uday msg.timestamp = some d)
    (hdisc : msg.author.discriminator ≠ 0) :
    ∀ u day, ds'.userCount u day
      = ds.userCount u day + (if u = msg.author.id ∧ day = d then 1 else 0) := by
  intro u day
  rw [process_message_user_eq ds msg d hd hdisc] at h
  have hds : ds' = _ := (Option.some.inj h).symm
  subst hds
  unfold Datastore.userCount
  by_cases hu : u = msg.author.id
  · subst hu
    rw [hmGet_hmInsert_self]
    by_cases hday : day = d
    · subst hday
      simp [hmGet_hmInsert_self]
    · simp only [Option.getD_some]
      rw [hmGet_hmInsert_ne _ _ _ _ hday]
      simp [hday]
  · rw [hmGet_hmInsert_ne _ _ _ _ hu]
    simp [hu]

/-- Step effect of `process_message` on `whCount` (webhook branch). -/
theorem process_message_whCount (ds : Datastore) (msg : Message) (ds' : Datastore) (d : Nat)
    (h : ds.process_message msg = some ds')
    (hd : timestamp_to_uday msg.timestamp = some d)
    (hdisc : msg.author.discriminator = 0) :
    ∀ w day, ds'.whCount w day
      = ds.whCount w day + (if w = msg.author.name ∧ day = d then 1 else 0) := by
  intro w day
  rw [process_message_wh_eq ds msg d hd hdisc] at h
  have hds : ds' = _ := (Option.some.inj h).symm
  subst hds
  unfold Datastore.whCount
  by_cases hw : w = msg.author.name
  · subst hw
    by_cases hday : day = d
    · subst hday
      cases hg : hmGet ds.wh_data msg.author.name with
      | none => simp [hg, hmGet_hmInsert_self, hmGet]
      | some w0 => simp [hg, hmGet_hmInsert_self]
    · cases hg : hmGet ds.wh_data msg.author.name with
      | none => simp [hg, hmGet_hmInsert_self, hmGet_hmInsert_ne _ _ _ _ hday, hmGet, hday,
          Ne.symm hday]
      | some w0 => simp [hg, hmGet_hmInsert_self, hmGet_hmInsert_ne _ _ _ _ hday, hday]
  · simp [hmGet_hmInsert_ne _ _ _ _ hw, hw]

/-- The user branch leaves webhook counts untouched, and conversely. -/
theorem process_message_other_map (ds : Datastore) (msg : Message) (ds' : Datastore) (d : Nat)
    (h : ds.process_message msg = some ds')
    (hd : timestamp_to_uday msg.timestamp = some d) :
    (msg.author.discriminator ≠ 0 → ds'.wh_data = ds.wh_data) ∧
    (msg.author.discriminator = 0 → ds'.user_data = ds.user_data) := by
  constructor
  · intro hdisc
    rw [process_message_user_eq ds msg d hd hdisc] at h
    have hds : ds' = _ := (Option.some.inj h).symm
    subst hds
    rfl
  · intro hdisc
    rw [process_message_wh_eq ds msg d hd hdisc] at h
    have hds : ds' = _ := (Option.some.inj h).symm
    subst hds
    rfl

/-- Step effect of `process_message` on `userTotal`. -/
theorem process_message_userTotal (ds : Datastore) (msg : Message) (ds' : Datastore)
    (h : ds.process_message msg = some ds') (uid : Nat) :
    ds'.userTotal uid = ds.userTotal uid
      + (if msg.author.discriminator ≠ 0 ∧ msg.author.id = uid then 1 else 0) := by
  obtain ⟨d, hd⟩ := process_message_some ds msg ds' h
  by_cases hdisc : msg.author.discriminator ≠ 0
  · rw [process_message_user_eq ds msg d hd hdisc] at h
    have hds : ds' = _ := (Option.some.inj h).symm
    subst hds
    unfold Datastore.userTotal
    by_cases hu : msg.author.id = uid
    · subst hu
      rw [hmGet_hmInsert_self]
      simp only [Option.getD_some]
      rw [hmInsert_bump_sum]
      simp [hdisc]
    · rw [hmGet_hmInsert_ne _ _ _ _ (fun hh => hu hh.symm)]
      simp [hdisc, hu]
  · rw [process_message_wh_eq ds msg d hd (by omega)] at h
    have hds : ds' = _ := (Option.some.inj h).symm
    subst hds
    unfold Datastore.userTotal
    simp [hdisc]

/-- Step effect of `process_message` on `whTotal`. -/
theorem process_message_whTotal (ds : Datastore) (msg : Message) (ds' : Datastore)
    (h : ds.process_message msg = some ds') (name : String) :
    ds'.whTotal name = ds.whTotal name
      + (if msg.author.discriminator = 0 ∧ msg.author.name = name then 1 else 0) := by
  obtain ⟨d, hd⟩ := process_message_some ds msg ds' h
  by_cases hdisc : msg.author.discriminator = 0
  · rw [process_message_wh_eq ds msg d hd hdisc] at h
    have hds : ds' = _ := (Option.some.inj h).symm
    subst hds
    unfold Datastore.whTotal
    by_cases hn : msg.author.name = name
    · subst hn
      cases hg : hmGet ds.wh_data msg.author.name with
      | none =>
        simp [hg, hmGet_hmInsert_self, hdisc, hmGet, hmInsert]
      | some w0 =>
        simp [hg, hmGet_hmInsert_self, hmInsert_bump_sum, hdisc]
    · simp [hmGet_hmInsert_ne _ _ _ _ (fun hh => hn hh.symm), hn]
  · rw [process_message_user_eq ds msg d hd hdisc] at h
    have hds : ds' = _ := (Option.some.inj h).symm
    subst hds
    unfold Datastore.whTotal
    simp [hdisc]

theorem processAll_userTotal (msgs : List Message) :
    ∀ (ds ds' : Datastore), ds.processAll msgs = some ds' → ∀ uid : Nat,
      ds'.userTotal uid = ds.userTotal uid
        + (msgs.filter fun m => m.author.discriminator != 0 && m.author.id == uid).length := by
  induction msgs with
  | nil =>
    intro ds ds' h uid
    simp only [Datastore.processAll] at h
    have := Option.some.inj h
    subst this
    simp
  | cons m rest ih =>
    intro ds ds' h uid
    simp only [Datastore.processAll] at h
    obtain ⟨ds1, h1, h2⟩ := Option.bind_eq_some.mp h
    have hstep := process_message_userTotal ds m ds1 h1 uid
    have hrest := ih ds1 ds' h2 uid
    rw [hrest, hstep]
    by_cases hc : m.author.discriminator ≠ 0 ∧ m.author.id = uid
    · simp only [List.filter_cons]
      have hb : (m.author.discriminator != 0 && m.author.id == uid) = true := by
        simp [hc.1, hc.2]
      rw [if_pos hb]
      simp [hc]
      omega
    · simp only [List.filter_cons]
      have hb : ¬((m.author.discriminator != 0 && m.author.id == uid) = true) := by
        simp only [Bool.and_eq_true, bne_iff_ne, beq_iff_eq]
        exact hc
      rw [if_neg hb]
      simp [hc]

theorem processAll_whTotal (msgs : List Message) :
    ∀ (ds ds' : Datastore), ds.processAll msgs = some ds' → ∀ name : String,
      ds'.whTotal name = ds.whTotal name
        + (msgs.filter fun m => m.author.discriminator == 0 && m.author.name == name).length := by
  induction msgs with
  | nil =>
    intro ds ds' h name
    simp only [Datastore.processAll] at h
    have := Option.some.inj h
    subst this
    simp
  | cons m rest ih =>
    intro ds ds' h name
    simp only [Datastore.processAll] at h
    obtain ⟨ds1, h1, h2⟩ := Option.bind_eq_some.mp h
    have hstep := process_message_whTotal ds m ds1 h1 name
    have hrest := ih ds1 ds' h2 name
    rw [hrest, hstep]
    by_cases hc : m.author.discriminator = 0 ∧ m.author.name = name
    · simp only [List.filter_cons]
      have hb : (m.author.discriminator == 0 && m.author.name == name) = true := by
        simp [hc.1, hc.2]
      rw [if_pos hb]
      simp [hc]
      omega
    · simp only [List.filter_cons]
      have hb : ¬((m.author.discriminator == 0 && m.author.name == name) = true) := by
        simp only [Bool.and_eq_true, beq_iff_eq]
        exact hc
      rw [if_neg hb]
      simp [hc]

/-- Day-key uniqueness invariant for every per-participant count map. -/
def Datastore.daysNodup (ds : Datastore) : Prop :=
  (∀ uid : Nat, (((hmGet ds.user_data uid).getD []).map Prod.fst).Nodup) ∧
  (∀ name : String, ∀ w, hmGet ds.wh_data name = some w →
    (w.msg_counts.map Prod.fst).Nodup)

theorem process_message_daysNodup (ds : Datastore) (msg : Message) (ds' : Datastore)
    (h : ds.process_message msg = some ds') (hd : ds.daysNodup) : ds'.daysNodup := by
  obtain ⟨d, hday⟩ := process_message_some ds msg ds' h
  obtain ⟨hu, hw⟩ := hd
  by_cases hdisc : msg.author.discriminator ≠ 0
  · rw [process_message_user_eq ds msg d hday hdisc] at h
    have hds : ds' = _ := (Option.some.inj h).symm
    subst hds
    refine ⟨?_, fun name w hg => hw name w hg⟩
    intro uid
    by_cases huid : uid = msg.author.id
    · subst huid
      simp only [hmGet_hmInsert_self, Option.getD_some]
      exact hmInsert_keys_nodup _ _ _ (hu msg.author.id)
    · rw [hmGet_hmInsert_ne _ _ _ _ huid]
      exact hu uid
  · rw [process_message_wh_eq ds msg d hday (by omega)] at h
    have hds : ds' = _ := (Option.some.inj h).symm
    subst hds
    refine ⟨fun uid => hu uid, ?_⟩
    intro name w hg
    by_cases hn : name = msg.author.name
    · subst hn
      rw [hmGet_hmInsert_self] at hg
      have hg2 := Option.some.inj hg
      subst hg2
      cases hg0 : hmGet ds.wh_data msg.author.name with
      | none => simp [hg0, hmInsert]
      | some w0 =>
        simp only [hg0, Option.getD_some]
        exact hmInsert_keys_nodup _ _ _ (hw msg.author.name w0 hg0)
    · rw [hmGet_hmInsert_ne _ _ _ _ hn] at hg
      exact hw name w hg

theorem processAll_daysNodup (msgs : List Message) :
    ∀ (ds ds' : Datastore), ds.processAll msgs = some ds' → ds.daysNodup → ds'.daysNodup := by
  induction msgs with
  | nil =>
    intro ds ds' h hd
    simp only [Datastore.processAll] at h
    have := Option.some.inj h
    subst this
    exact hd
  | cons m rest ih =>
    intro ds ds' h hd
    simp only [Datastore.processAll] at h
    obtain ⟨ds1, h1, h2⟩ := Option.bind_eq_some.mp h
    exact ih ds1 ds' h2 (process_message_daysNodup ds m ds1 h1 hd)

/-- Step effect of `process_message` on the observed range. -/
theorem process_message_range (ds : Datastore) (msg : Message) (ds' : Datastore) (d : Nat)
    (h : ds.process_message msg = some ds')
    (hd : timestamp_to_uday msg.timestamp = some d) :
    ds'.range = (some (min ((ds.range.1).getD 65535) d),
                 some (max ((ds.range.2).getD 0) d)) := by
  by_cases hdisc : msg.author.discriminator ≠ 0
  · rw [process_message_user_eq ds msg d hd hdisc] at h
    have hds : ds' = _ := (Option.some.inj h).symm
    subst hds
    rfl
  · rw [process_message_wh_eq ds msg d hd (by omega)] at h
    have hds : ds' = _ := (Option.some.inj h).symm
    subst hds
    rfl

theorem processAll_range (msgs : List Message) :
    ∀ (ds ds' : Datastore), ds.processAll msgs = some ds' →
      ∀ lo hi, ds.range = (some lo, some hi) →
        ∃ lo' hi', ds'.range = (some lo', some hi') ∧ lo' ≤ lo ∧ hi ≤ hi' := by
  induction msgs with
  | nil =>
    intro ds ds' h lo hi hr
    simp only [Datastore.processAll] at h
    have := Option.some.inj h
    subst this
    exact ⟨lo, hi, hr, le_refl lo, le_refl hi⟩
  | cons m rest ih =>
    intro ds ds' h lo hi hr
    simp only [Datastore.processAll] at h
    obtain ⟨ds1, h1, h2⟩ := Option.bind_eq_some.mp h
    obtain ⟨d, hd⟩ := process_message_some ds m ds1 h1
    have hr1 := process_message_range ds m ds1 d h1 hd
    rw [hr] at hr1
    simp only [Option.getD_some] at hr1
    obtain ⟨lo', hi', hr2, hlo, hhi⟩ := ih ds1 ds' h2 (min lo d) (max hi d) hr1
    exact ⟨lo', hi', hr2, le_trans hlo (min_le_left lo d), le_trans (le_max_left hi d) hhi⟩

/-! ## Claim theorems -/

/-- C2: every successful `process_message` call bumps exactly the
(participant, day) count selected by the discriminator and changes no other
count; consequently, processing any batch of messages from the empty store
leaves each participant's per-day counts summing to the number of that
participant's messages in the batch (an order-independent quantity), the
day keys of every count map staying duplicate-free. -/
theorem c2_count_conservation :
    (∀ (ds : Datastore) (msg : Message) (ds' : Datastore) (d : Nat),
      ds.process_message msg = some ds' →
      timestamp_to_uday msg.timestamp = some d →
      (msg.author.discriminator ≠ 0 →
        (∀ u day, ds'.userCount u day
          = ds.userCount u day + (if u = msg.author.id ∧ day = d then 1 else 0)) ∧
        (∀ w day, ds'.whCount w day = ds.whCount w day)) ∧
      (msg.author.discriminator = 0 →
        (∀ w day, ds'.whCount w day
          = ds.whCount w day + (if w = msg.author.name ∧ day = d then 1 else 0)) ∧
        (∀ u day, ds'.userCount u day = ds.userCount u day))) ∧
    (∀ (msgs : List Message) (ds' : Datastore),
      Datastore.default.processAll msgs = some ds' →
      (∀ uid : Nat, ds'.userTotal uid
        = (msgs.filter fun m => m.author.discriminator != 0 && m.author.id == uid).length) ∧
      (∀ name : String, ds'.whTotal name
        = (msgs.filter fun m => m.author.discriminator == 0 && m.author.name == name).length) ∧
      ds'.daysNodup) := by
  constructor
  · intro ds msg ds' d h hd
    constructor
    · intro hdisc
      refine ⟨process_message_userCount ds msg ds' d h hd hdisc, ?_⟩
      intro w day
      unfold Datastore.whCount
      rw [(process_message_other_map ds msg ds' d h hd).1 hdisc]
    · intro hdisc
      refine ⟨process_message_whCount ds msg ds' d h hd hdisc, ?_⟩
      intro u day
      unfold Datastore.userCount
      rw [(process_message_other_map ds msg ds' d h hd).2 hdisc]
  · intro msgs ds' h
    refine ⟨fun uid => ?_, fun name => ?_, ?_⟩
    · have := processAll_userTotal msgs Datastore.default ds' h uid
      simpa [Datastore.userTotal, Datastore.default, hmGet] using this
    · have := processAll_whTotal msgs Datastore.default ds' h name
      simpa [Datastore.whTotal, Datastore.default, hmGet] using this
    · refine processAll_daysNodup msgs Datastore.default ds' h ?_
      exact ⟨fun uid => by simp [Datastore.default, hmGet],
             fun name w hg => by simp [Datastore.default, hmGet] at hg⟩

/-- C3: a successful `process_message` leaves the range defined with
min ≤ d ≤ max, never moves min up nor max down, and a first message
(undefined range) pins both bounds to its day; over any batch, a defined
range never shrinks. -/
theorem c3_range_monotone :
    (∀ (ds : Datastore) (msg : Message) (ds' : Datastore) (d : Nat),
      ds.process_message msg = some ds' →
      timestamp_to_uday msg.timestamp = some d →
      ∃ lo hi, ds'.range = (some lo, some hi) ∧ lo ≤ d ∧ d ≤ hi ∧
        (∀ lo0, ds.range.1 = some lo0 → lo ≤ lo0) ∧
        (∀ hi0, ds.range.2 = some hi0 → hi0 ≤ hi) ∧
        (ds.range = (none, none) → lo = d ∧ hi = d)) ∧
    (∀ (msgs : List Message) (ds ds' : Datastore),
      ds.processAll msgs = some ds' →
      ∀ lo hi, ds.range = (some lo, some hi) →
        ∃ lo' hi', ds'.range = (some lo', some hi') ∧ lo' ≤ lo ∧ hi ≤ hi') := by
  constructor
  · intro ds msg ds' d h hd
    have hr := process_message_range ds msg ds' d h hd
    have hd65535 := uday_le msg.timestamp d hd
    refine ⟨min ((ds.range.1).getD 65535) d, max ((ds.range.2).getD 0) d, hr,
      min_le_right _ _, le_max_right _ _, ?_, ?_, ?_⟩
    · intro lo0 hlo0
      rw [hlo0]
      exact min_le_left _ _
    · intro hi0 hhi0
      rw [hhi0]
      exact le_max_left _ _
    · intro hnone
      have h1 : ds.range.1 = none := by rw [hnone]
      have h2 : ds.range.2 = none := by rw [hnone]
      rw [h1, h2]
      simp
      omega
  · intro msgs ds ds' h lo hi hr
    exact processAll_range msgs ds ds' h lo hi hr

/-- C10: `process_message` classifies by `author.discriminator == 0` alone
(the source consults no webhook flag): a zero discriminator leaves the
user map untouched and books the message under the author's name in the
webhook map, capturing the avatar URL only when the name is first seen; a
nonzero discriminator leaves the webhook map untouched and books the
message under the numeric author id in the user map. -/
theorem c10_webhook_classification (ds : Datastore) (msg : Message) (ds' : Datastore)
    (h : ds.process_message msg = some ds') :
    (msg.author.discriminator = 0 →
      ds'.user_data = ds.user_data ∧
      ds'.whCount msg.author.name
        ((timestamp_to_uday msg.timestamp).getD 0)
        = ds.whCount msg.author.name ((timestamp_to_uday msg.timestamp).getD 0) + 1 ∧
      ∃ w, hmGet ds'.wh_data msg.author.name = some w ∧
        w.avatar_url = (match hmGet ds.wh_data msg.author.name with
          | some w0 => w0.avatar_url
          | none => msg.author.avatar_url.getD DEFAULT_PFP)) ∧
    (msg.author.discriminator ≠ 0 →
      ds'.wh_data = ds.wh_data ∧
      ds'.userCount msg.author.id
        ((timestamp_to_uday msg.timestamp).getD 0)
        = ds.userCount msg.author.id ((timestamp_to_uday msg.timestamp).getD 0) + 1) := by
  obtain ⟨d, hd⟩ := process_message_some ds msg ds' h
  constructor
  · intro hdisc
    refine ⟨(process_message_other_map ds msg ds' d h hd).2 hdisc, ?_, ?_⟩
    · have := process_message_whCount ds msg ds' d h hd hdisc msg.author.name d
      rw [hd]
      simpa using this
    · rw [process_message_wh_eq ds msg d hd hdisc] at h
      have hds : ds' = _ := (Option.some.inj h).symm
      subst hds
      refine ⟨_, hmGet_hmInsert_self _ _ _, ?_⟩
      cases hg : hmGet ds.wh_data msg.author.name with
      | none => simp [hg]
      | some w0 => simp [hg]
  · intro hdisc
    refine ⟨(process_message_other_map ds msg ds' d h hd).1 hdisc, ?_⟩
    have := process_message_userCount ds msg ds' d h hd hdisc msg.author.id d
    rw [hd]
    simpa using this

/-- C7: bucket lookup walks the fixed table in ascending order with
strictly-less-than tests, so a total of exactly 10 lands in `10-25`, a
total of 0 lands in `<10`, and any total of at least 50000 falls through
every row to `50,000+`. -/
theorem c7_bucket_boundaries :
    categorize_num 10 = "10-25" ∧ categorize_num 0 = "<10" ∧
    ∀ n : Nat, 50000 ≤ n → categorize_num n = "50,000+" := by
  refine ⟨by decide, by decide, fun n hn => ?_⟩
  simp only [categorize_num, categories, catScan]
  repeat rw [if_neg (by omega)]

/-- Witness for C7 at a concrete high total. -/
theorem c7_bucket_boundaries_witness :
    50000 ≤ 123456 ∧ categorize_num 123456 = "50,000+" :=
  ⟨by decide, c7_bucket_boundaries.2.2 123456 (by decide)⟩

/-! ## Codec round-trip lemmas -/

theorem decNat_enc (n : Nat) (r : List Nat) : decNat (encNat n ++ r) = some (n, r) := rfl

theorem decInt_enc (i : Int) (r : List Nat) : decInt (encInt i ++ r) = some (i, r) := by
  unfold encInt
  by_cases h : 0 ≤ i
  · rw [if_pos h]
    simp [decInt, Int.toNat_of_nonneg h]
  · rw [if_neg h]
    have h2 : (0 : Int) ≤ -i := by omega
    simp [decInt, Int.toNat_of_nonneg h2]

theorem decOptNat_enc (o : Option Nat) (r : List Nat) :
    decOptNat (encOptNat o ++ r) = some (o, r) := by
  cases o with
  | none => rfl
  | some n => rfl

theorem decChars_enc (cs : List Char) (r : List Nat) :
    decChars cs.length (cs.map Char.toNat ++ r) = some (cs, r) := by
  induction cs with
  | nil => rfl
  | cons c cs ih => simp [decChars, ih, Char.ofNat_toNat]

theorem decStr_enc (s : String) (r : List Nat) : decStr (encStr s ++ r) = some (s, r) := by
  cases s with
  | mk cs => simp [encStr, decStr, decChars_enc]

theorem decElems_enc {α : Type} (f : List Nat → Option (α × List Nat)) (g : α → List Nat)
    (l : List α) (hf : ∀ a ∈ l, ∀ r, f (g a ++ r) = some (a, r)) (r : List Nat) :
    decElems f l.length ((l.map g).flatten ++ r) = some (l, r) := by
  induction l with
  | nil => rfl
  | cons a l ih =>
    simp only [List.map_cons, List.flatten_cons, List.length_cons, List.append_assoc]
    rw [decElems]
    rw [hf a (List.mem_cons_self a l) _]
    simp only [Option.bind_eq_bind, Option.some_bind]
    rw [ih fun a ha r => hf a (List.mem_cons_of_mem _ ha) r]
    rfl

theorem decListWith_enc {α : Type} (f : List Nat → Option (α × List Nat)) (g : α → List Nat)
    (l : List α) (hf : ∀ a ∈ l, ∀ r, f (g a ++ r) = some (a, r)) (r : List Nat) :
    decListWith f (encListWith g l ++ r) = some (l, r) := by
  simp only [encListWith, List.cons_append, decListWith]
  exact decElems_enc f g l hf r

theorem decNatPair_enc (p : Nat × Nat) (r : List Nat) :
    decNatPair (encNatPair p ++ r) = some (p, r) := rfl

theorem decUserEntry_enc (p : Nat × List (Nat × Nat)) (r : List Nat) :
    decUserEntry (encUserEntry p ++ r) = some (p, r) := by
  obtain ⟨k, m⟩ := p
  simp only [encUserEntry, decUserEntry, List.append_assoc]
  rw [decNat_enc]
  simp only [Option.bind_eq_bind, Option.some_bind]
  rw [decListWith_enc decNatPair encNatPair m (fun a _ r => decNatPair_enc a r) r]
  rfl

theorem decWhEntry_enc (p : String × WebhookData) (r : List Nat) :
    decWhEntry (encWhEntry p ++ r) = some (p, r) := by
  obtain ⟨k, av, m⟩ := p
  simp only [encWhEntry, decWhEntry, List.append_assoc]
  rw [decStr_enc]
  simp only [Option.bind_eq_bind, Option.some_bind]
  rw [decStr_enc]
  simp only [Option.some_bind]
  rw [decListWith_enc decNatPair encNatPair m (fun a _ r => decNatPair_enc a r) r]
  rfl

theorem decFetchEntry_enc (p : Nat × Int) (r : List Nat) :
    decFetchEntry (encFetchEntry p ++ r) = some (p, r) := by
  obtain ⟨k, i⟩ := p
  simp only [encFetchEntry, decFetchEntry, List.append_assoc]
  rw [decNat_enc]
  simp only [Option.bind_eq_bind, Option.some_bind]
  rw [decInt_enc]
  rfl

theorem decDatastore_enc (ds : Datastore) (r : List Nat) :
    decDatastore (encDatastore ds ++ r) = some (ds, r) := by
  obtain ⟨⟨r0, r1⟩, ud, wd, lf⟩ := ds
  simp only [encDatastore, decDatastore, List.append_assoc]
  rw [decOptNat_enc]
  simp only [Option.bind_eq_bind, Option.some_bind]
  rw [decOptNat_enc]
  simp only [Option.some_bind]
  rw [decListWith_enc decUserEntry encUserEntry ud (fun a _ r => decUserEntry_enc a r)]
  simp only [Option.some_bind]
  rw [decListWith_enc decWhEntry encWhEntry wd (fun a _ r => decWhEntry_enc a r)]
  simp only [Option.some_bind]
  rw [decListWith_enc decFetchEntry encFetchEntry lf (fun a _ r => decFetchEntry_enc a r)]
  rfl

/-- C9: a failure-free save followed by a load reproduces the exact store —
the same observed range, the same user and webhook count maps (each webhook
record carrying its captured avatar URL), and the same per-channel cursors,
all packed into the structure equality. -/
theorem c9_cache_round_trip (ds : Datastore) (file : Option (List Nat)) :
    (ds.save_to_cache file false none).1 = Except.ok () ∧
    Datastore.load_from_cache (ds.save_to_cache file false none).2 = some ds := by
  refine ⟨rfl, ?_⟩
  show Datastore.load_from_cache (some (encDatastore ds)) = some ds
  have h := decDatastore_enc ds []
  rw [List.append_nil] at h
  simp [Datastore.load_from_cache, h]

/-- C4 counterexample: saving the default store over a cache file holding
`[7]`, with the write failing after 0 tokens, returns an I/O error yet
leaves the file truncated to `[]` — the previously persisted contents are
destroyed, refuting the claim that a failed write leaves them unchanged
(the `File::create` at src/datastore.rs line 72 truncates before
`ciborium::ser::into_writer` streams a single byte). -/
theorem c4_counterexample :
    Datastore.default.save_to_cache (some [7]) false (some 0)
      = (Except.error (), some []) ∧
    (some [] : Option (List Nat)) ≠ some [7] :=
  ⟨rfl, by decide⟩

/-- C4 amended: `save_to_cache` never consults the previous contents (the
cache file is truncated up front), then streams the encoding; on success the
file holds exactly the full encoding, and on an I/O failure it holds some
prefix of the encoding — not the previous contents. -/
theorem c4_write_amended (ds : Datastore) (file file2 : Option (List Nat))
    (budget : Option Nat) :
    ds.save_to_cache file false budget = ds.save_to_cache file2 false budget ∧
    ∃ l, (ds.save_to_cache file false budget).2 = some l ∧
      (∃ t, l ++ t = encDatastore ds) ∧
      ((ds.save_to_cache file false budget).1 = Except.ok () → l = encDatastore ds) := by
  refine ⟨rfl, ?_⟩
  cases budget with
  | none => exact ⟨encDatastore ds, rfl, ⟨[], List.append_nil _⟩, fun _ => rfl⟩
  | some k =>
    by_cases hk : k < (encDatastore ds).length
    · refine ⟨(encDatastore ds).take k, ?_,
        ⟨(encDatastore ds).drop k, List.take_append_drop k _⟩, ?_⟩
      · simp [Datastore.save_to_cache, hk]
      · intro hok
        simp [Datastore.save_to_cache, hk] at hok
    · refine ⟨encDatastore ds, ?_, ⟨[], List.append_nil _⟩, fun _ => rfl⟩
      simp [Datastore.save_to_cache, hk]

/-- C6 counterexample: on the empty aggregate the report succeeds with zero
data rows, but the header is not the bare `Username, Category, PFP`: the
undefined bounds default to 0 and the inclusive day range `0..=0` holds one
day, so one date column, `1970-01-01`, is emitted. -/
theorem c6_counterexample :
    Datastore.default.write_out (fun _ => none)
      = (["Username", "Category", "PFP", "1970-01-01"], [], []) ∧
    (["Username", "Category", "PFP", "1970-01-01"] : List String)
      ≠ ["Username", "Category", "PFP"] :=
  ⟨by decide, by decide⟩

/-- C6 amended: for the empty aggregate, report generation succeeds (total
function, no error path) and produces header-only tables with zero data
rows, the header being `Username, Category, PFP` followed by the single
date column `1970-01-01` for the defaulted range `[0, 0]`, whatever the
profile resolver does. -/
theorem c6_empty_report_amended (resolve : Nat → Option UserProfile) :
    Datastore.default.write_out resolve
      = (["Username", "Category", "PFP", "1970-01-01"], [], []) := rfl

/-! ## Concrete fixtures used by witnesses and counterexamples -/

def wAuthorU : Author := { id := 7, discriminator := 1, name := "alice", avatar_url := none }

def wAuthorW : Author :=
  { id := 0, discriminator := 0, name := "Bot1", avatar_url := some "http://a.example/x.png" }

def wMsgU : Message := { id := 1, author := wAuthorU, timestamp := 86400 }

def wMsgW : Message := { id := 2, author := wAuthorW, timestamp := 172800 }

def wBatch : List Message := [wMsgU, wMsgW, wMsgU]

def wDs1 : Datastore :=
  (Datastore.default.process_message wMsgU).getD Datastore.default

def wDs2 : Datastore := (wDs1.processAll [wMsgW]).getD Datastore.default

def wDsW : Datastore :=
  (Datastore.default.process_message wMsgW).getD Datastore.default

def wDsAll : Datastore :=
  (Datastore.default.processAll wBatch).getD Datastore.default

/-- Witness for C2: one user message from the empty store bumps exactly the
(7, day 1) cell, and a three-message batch leaves the totals at the batch's
per-participant message counts. -/
theorem c2_count_conservation_witness :
    Datastore.default.process_message wMsgU = some wDs1 ∧
    timestamp_to_uday wMsgU.timestamp = some 1 ∧
    wDs1.userCount 7 1 = Datastore.default.userCount 7 1
      + (if 7 = wMsgU.author.id ∧ 1 = 1 then 1 else 0) ∧
    Datastore.default.processAll wBatch = some wDsAll ∧
    wDsAll.userTotal 7
      = (wBatch.filter fun m => m.author.discriminator != 0 && m.author.id == 7).length ∧
    wDsAll.whTotal "Bot1"
      = (wBatch.filter fun m => m.author.discriminator == 0 && m.author.name == "Bot1").length :=
  ⟨by decide, by decide,
   ((c2_count_conservation.1 Datastore.default wMsgU wDs1 1 (by decide) (by decide)).1
      (by decide)).1 7 1,
   by decide,
   (c2_count_conservation.2 wBatch wDsAll (by decide)).1 7,
   (c2_count_conservation.2 wBatch wDsAll (by decide)).2.1 "Bot1"⟩

/-- Witness for C3: the first message pins the range to its day, and a
later message can only widen it. -/
theorem c3_range_monotone_witness :
    Datastore.default.process_message wMsgU = some wDs1 ∧
    timestamp_to_uday wMsgU.timestamp = some 1 ∧
    wDs1.processAll [wMsgW] = some wDs2 ∧
    wDs1.range = (some 1, some 1) ∧
    (∃ lo hi, wDs1.range = (some lo, some hi) ∧ lo ≤ 1 ∧ 1 ≤ hi ∧
      (∀ lo0, Datastore.default.range.1 = some lo0 → lo ≤ lo0) ∧
      (∀ hi0, Datastore.default.range.2 = some hi0 → hi0 ≤ hi) ∧
      (Datastore.default.range = (none, none) → lo = 1 ∧ hi = 1)) ∧
    (∃ lo' hi', wDs2.range = (some lo', some hi') ∧ lo' ≤ 1 ∧ 1 ≤ hi') :=
  ⟨by decide, by decide, by decide, by decide,
   c3_range_monotone.1 Datastore.default wMsgU wDs1 1 (by decide) (by decide),
   c3_range_monotone.2 [wMsgW] wDs1 wDs2 (by decide) 1 1 (by decide)⟩

/-- Witness for C10: a discriminator-0 message from the empty store leaves
the user map untouched and creates the webhook entry with the message's
avatar URL. -/
theorem c10_webhook_classification_witness :
    Datastore.default.process_message wMsgW = some wDsW ∧
    wMsgW.author.discriminator = 0 ∧
    wDsW.user_data = Datastore.default.user_data ∧
    (∃ w, hmGet wDsW.wh_data wMsgW.author.name = some w ∧
      w.avatar_url = (match hmGet Datastore.default.wh_data wMsgW.author.name with
        | some w0 => w0.avatar_url
        | none => wMsgW.author.avatar_url.getD DEFAULT_PFP)) :=
  ⟨by decide, by decide,
   ((c10_webhook_classification Datastore.default wMsgW wDsW (by decide)).1 (by decide)).1,
   ((c10_webhook_classification Datastore.default wMsgW wDsW (by decide)).1 (by decide)).2.2⟩

/-! ## Cumulative totals (C8) -/

/-- Running sums of a list starting from accumulator `s`. -/
def sumsFrom (s : Nat) : List Nat → List Nat
  | [] => []
  | d :: rest => (s + d) :: sumsFrom (s + d) rest

/-- The per-day counts read off a count map over the inclusive range. -/
def dayCounts (data : List (Nat × Nat)) (lo hi : Nat) : List Nat :=
  (List.range' lo (hi + 1 - lo)).map fun i => (hmGet data i).getD 0

theorem genGo_eq (data : List (Nat × Nat)) :
    ∀ (days : List Nat) (out : MessageStats),
      MessageStats.genGo data days out =
        { total := out.total + (days.map fun i => (hmGet data i).getD 0).sum,
          daily := out.daily ++ ((days.map fun i => (hmGet data i).getD 0).map toString),
          totals := out.totals
            ++ ((sumsFrom out.total (days.map fun i => (hmGet data i).getD 0)).map
                toString) } := by
  intro days
  induction days with
  | nil => intro out; simp [MessageStats.genGo, sumsFrom]
  | cons i rest ih =>
    intro out
    rw [MessageStats.genGo, ih]
    simp [sumsFrom, Nat.add_assoc]

theorem generate_eq (data : List (Nat × Nat)) (lo hi : Nat) :
    MessageStats.generate data (lo, hi) =
      { total := (dayCounts data lo hi).sum,
        daily := (dayCounts data lo hi).map toString,
        totals := (sumsFrom 0 (dayCounts data lo hi)).map toString } := by
  unfold MessageStats.generate dayCounts
  rw [genGo_eq]
  simp

theorem sumsFrom_length (l : List Nat) : ∀ s, (sumsFrom s l).length = l.length := by
  induction l with
  | nil => intro s; rfl
  | cons d rest ih => intro s; simp [sumsFrom, ih]

theorem sumsFrom_getD (l : List Nat) : ∀ s i, i < l.length →
    (sumsFrom s l).getD i 0 = s + (l.take (i + 1)).sum := by
  induction l with
  | nil => intro s i h; simp at h
  | cons d rest ih =>
    intro s i h
    cases i with
    | zero => simp [sumsFrom]
    | succ i =>
      have h2 : i < rest.length := by simpa using h
      simp only [sumsFrom, List.getD_cons_succ]
      rw [ih (s + d) i h2]
      simp [List.take_succ_cons, Nat.add_assoc]

theorem sumsFrom_head_ge (l : List Nat) (s x : Nat)
    (h : (sumsFrom s l).head? = some x) : s ≤ x := by
  cases l with
  | nil => simp [sumsFrom] at h
  | cons d rest =>
    simp [sumsFrom] at h
    omega

theorem sumsFrom_chain (l : List Nat) : ∀ s, List.Chain' (fun a b => a ≤ b) (sumsFrom s l) := by
  induction l with
  | nil => intro s; simp [sumsFrom]
  | cons d rest ih =>
    intro s
    rw [sumsFrom, List.chain'_cons']
    refine ⟨fun y hy => ?_, ih (s + d)⟩
    have := sumsFrom_head_ge rest (s + d) y (Option.mem_def.mp hy)
    omega

/-- C8: over any range lo ≤ hi the generated rows render the per-day counts
and their running sums; the totals row obeys totals[i] = totals[i-1] +
daily[i] with totals[-1] = 0 and is non-decreasing left to right. -/
theorem c8_totals_cumulative (data : List (Nat × Nat)) (lo hi : Nat) (h : lo ≤ hi) :
    (MessageStats.generate data (lo, hi)).daily = (dayCounts data lo hi).map toString ∧
    (MessageStats.generate data (lo, hi)).totals
      = (sumsFrom 0 (dayCounts data lo hi)).map toString ∧
    (sumsFrom 0 (dayCounts data lo hi)).length = hi + 1 - lo ∧
    (∀ i, i < (sumsFrom 0 (dayCounts data lo hi)).length →
      (sumsFrom 0 (dayCounts data lo hi)).getD i 0
        = (if i = 0 then 0 else (sumsFrom 0 (dayCounts data lo hi)).getD (i - 1) 0)
          + (dayCounts data lo hi).getD i 0) ∧
    List.Chain' (fun a b => a ≤ b) (sumsFrom 0 (dayCounts data lo hi)) := by
  refine ⟨?_, ?_, ?_, ?_, sumsFrom_chain _ 0⟩
  · rw [generate_eq]
  · rw [generate_eq]
  · rw [sumsFrom_length]
    unfold dayCounts
    rw [List.length_map, List.length_range']
  · intro i hlen
    rw [sumsFrom_length] at hlen
    by_cases h0 : i = 0
    · subst h0
      rw [sumsFrom_getD _ 0 0 hlen]
      cases hdd : dayCounts data lo hi with
      | nil => rw [hdd] at hlen; simp at hlen
      | cons x rest => simp [hdd]
    · obtain ⟨j, rfl⟩ : ∃ j, i = j + 1 := ⟨i - 1, by omega⟩
      rw [if_neg h0]
      have hj : j < (dayCounts data lo hi).length := by omega
      simp only [Nat.add_sub_cancel]
      rw [sumsFrom_getD _ 0 (j + 1) hlen, sumsFrom_getD _ 0 j hj]
      have hs := List.sum_take_succ (dayCounts data lo hi) (j + 1) hlen
      rw [hs, List.getD_eq_getElem _ _ hlen]
      omega

/-- Witness for C8 on a two-day range with counts 5 and 2. -/
theorem c8_totals_cumulative_witness :
    3 ≤ 4 ∧
    (MessageStats.generate [(3, 5), (4, 2)] (3, 4)).totals
      = (sumsFrom 0 (dayCounts [(3, 5), (4, 2)] 3 4)).map toString :=
  ⟨by decide, (c8_totals_cumulative [(3, 5), (4, 2)] 3 4 (by decide)).2.1⟩

/-! ## Cursor selection (C1) -/

theorem exists_getLast? {α : Type} : ∀ (l : List α), l ≠ [] → ∃ m, l.getLast? = some m
  | [], h => absurd rfl h
  | [a], _ => ⟨a, rfl⟩
  | a :: b :: t, _ => by
    rw [List.getLast?_cons_cons]
    exact exists_getLast? (b :: t) (List.cons_ne_nil _ _)

/-- The chronologically last element of the sorted page carries the page's
greatest id, provided ids are monotone in timestamps on the page. -/
theorem sortTs_last_id_max (p : List Message) (m : Message)
    (hlast : (sortTs p).getLast? = some m)
    (h1 : ∀ a ∈ p, ∀ b ∈ p, a.timestamp ≤ b.timestamp → a.id ≤ b.id) :
    m ∈ p ∧ ∀ x ∈ p, x.id ≤ m.id := by
  have hm : m ∈ p := (mem_sortTs m p).mp (mem_of_getLast?_eq _ m hlast)
  refine ⟨hm, fun x hx => ?_⟩
  have hxs : x ∈ sortTs p := (mem_sortTs x p).mpr hx
  rcases pairwise_getLast (sortTs p) (sortTs_sorted p) m hlast x hxs with h0 | h0
  · exact h0 ▸ le_refl _
  · exact h1 x hx m hm h0

/-- The cursor returned by the page loop is the id of the chronologically
last message of the final page; under id/timestamp monotonicity and pages
arriving in strictly ascending id blocks (as fetching strictly after the
cursor guarantees), that is the greatest id over all pages. -/
theorem chanLoop_cursor :
    ∀ (pages : List (List Message)),
      (∀ a ∈ pages.flatten, ∀ b ∈ pages.flatten, a.timestamp ≤ b.timestamp → a.id ≤ b.id) →
      List.Pairwise (fun p q => ∀ a ∈ p, ∀ b ∈ q, a.id < b.id) pages →
      (∀ p ∈ pages, p ≠ []) → pages ≠ [] →
      ∀ (ds : Datastore) (c : Int) (intr : Bool) (sched : List Bool)
        (ds' : Datastore) (cur : Int) (intr' : Bool) (sched' : List Bool),
        chanLoop ds pages c intr sched = some (ds', cur, intr', sched') →
        cur = (maxId pages : Int) := by
  intro pages
  induction pages with
  | nil => intro _ _ _ hne; exact absurd rfl hne
  | cons p rest ih =>
    intro h1 h2 h3 _ ds c intr sched ds' cur intr' sched' hrun
    have hpne : p ≠ [] := h3 p (List.mem_cons_self _ _)
    have hsne : sortTs p ≠ [] := fun hh => hpne ((sortTs_eq_nil_iff p).mp hh)
    obtain ⟨m, hm⟩ := exists_getLast? (sortTs p) hsne
    have h1p : ∀ a ∈ p, ∀ b ∈ p, a.timestamp ≤ b.timestamp → a.id ≤ b.id := by
      intro a ha b hb
      exact h1 a (by rw [List.flatten_cons]; exact List.mem_append_left _ ha)
               b (by rw [List.flatten_cons]; exact List.mem_append_left _ hb)
    obtain ⟨hmem, hmax⟩ := sortTs_last_id_max p m hm h1p
    rw [chanLoop] at hrun
    simp only [hm] at hrun
    obtain ⟨ds2, hp, hrec⟩ := Option.bind_eq_some.mp hrun
    cases rest with
    | nil =>
      rw [chanLoop] at hrec
      have htup := Option.some.inj hrec
      have hcur : cur = (m.id : Int) := by
        have := congrArg (fun t => t.2.1) htup
        simpa using this.symm
      rw [hcur]
      have : maxId [p] = m.id := by
        unfold maxId
        simp only [List.flatten, List.append_nil]
        refine foldr_max_eq _ _ (List.mem_map_of_mem Message.id hmem) ?_
        intro y hy
        obtain ⟨x, hx, rfl⟩ := List.mem_map.mp hy
        exact hmax x hx
      rw [this]
    | cons q rest2 =>
      have h1r : ∀ a ∈ (q :: rest2).flatten, ∀ b ∈ (q :: rest2).flatten,
          a.timestamp ≤ b.timestamp → a.id ≤ b.id := by
        intro a ha b hb
        have ha2 : a ∈ (p :: q :: rest2).flatten := by
          rw [List.flatten_cons]
          exact List.mem_append_right p ha
        have hb2 : b ∈ (p :: q :: rest2).flatten := by
          rw [List.flatten_cons]
          exact List.mem_append_right p hb
        exact h1 a ha2 b hb2
      have h2r := (List.pairwise_cons.mp h2).2
      have h3r : ∀ r ∈ q :: rest2, r ≠ [] :=
        fun r hr => h3 r (List.mem_cons_of_mem p hr)
      have hcur := ih h1r h2r h3r (List.cons_ne_nil _ _) ds2 (m.id : Int) (intr || sched.headD false)
        sched.tail ds' cur intr' sched' hrec
      rw [hcur]
      have hq : q ≠ [] := h3 q (List.mem_cons_of_mem p (List.mem_cons_self _ _))
      obtain ⟨m0, hm0⟩ : ∃ m0, m0 ∈ q := by
        cases q with
        | nil => exact absurd rfl hq
        | cons a t => exact ⟨a, List.mem_cons_self a t⟩
      have hm0max : m0.id ≤ maxId (q :: rest2) := by
        unfold maxId
        refine le_foldr_max _ _ ?_
        refine List.mem_map_of_mem Message.id ?_
        rw [List.flatten_cons]
        exact List.mem_append_left _ hm0
      have hplt : ∀ a ∈ p, a.id < m0.id :=
        fun a ha => (List.pairwise_cons.mp h2).1 q (List.mem_cons_self _ _) a ha m0 hm0
      have hcollapse : maxId (p :: q :: rest2) = maxId (q :: rest2) := by
        unfold maxId
        rw [List.flatten_cons, List.map_append, foldr_max_append]
        refine Nat.max_eq_right ?_
        refine foldr_max_le _ _ ?_
        intro y hy
        obtain ⟨x, hx, rfl⟩ := List.mem_map.mp hy
        exact le_trans (le_of_lt (hplt x hx)) hm0max
      rw [hcollapse]

/-- C1 counterexample: one page whose id order disagrees with its timestamp
order (ids 2, 1 with timestamps 200, 300).  The loop sorts by timestamp and
persists the chronologically last message's id, 1, while the maximum id
seen is 2 — so the persisted cursor is not the maximum message identifier
for an arbitrary sequence of pages. -/
theorem c1_counterexample :
    (guildLoop Datastore.default
        [(5, [[{ id := 2, author := wAuthorU, timestamp := 200 },
               { id := 1, author := wAuthorU, timestamp := 300 }]])] []).map
      (fun ds => ds.get_last_fetch 5) = some 1 ∧
    maxId [[{ id := 2, author := wAuthorU, timestamp := 200 },
            { id := 1, author := wAuthorU, timestamp := 300 }]] = 2 ∧
    (1 : Int) ≠ (2 : Int) :=
  ⟨by decide, by decide, by decide⟩

/-- C1 amended: the loop sorts each page by timestamp and takes the
chronologically last message's id as the cursor (definition `chanLoop`);
when ids are monotone in timestamps across the fed messages and pages
arrive in strictly ascending id blocks — the contract of fetching strictly
after the cursor — the cursor persisted after the N nonempty pages equals
the maximum id seen across all N pages. -/
theorem c1_cursor_amended (ds ds' : Datastore) (chId : Nat)
    (pages : List (List Message)) (sched : List Bool)
    (h1 : ∀ a ∈ pages.flatten, ∀ b ∈ pages.flatten,
      a.timestamp ≤ b.timestamp → a.id ≤ b.id)
    (h2 : List.Pairwise (fun p q => ∀ a ∈ p, ∀ b ∈ q, a.id < b.id) pages)
    (h3 : ∀ p ∈ pages, p ≠ []) (hne : pages ≠ [])
    (hrun : guildLoop ds [(chId, pages)] sched = some ds') :
    ds'.get_last_fetch chId = (maxId pages : Int) := by
  rw [guildLoop] at hrun
  obtain ⟨⟨ds2, cur, intr, sched2⟩, hc, hrest⟩ := Option.bind_eq_some.mp hrun
  have hcur := chanLoop_cursor pages h1 h2 h3 hne ds _ false sched ds2 cur intr sched2 hc
  have hds' : ds' = ds2.save_last_fetch chId cur := by
    cases intr with
    | true => exact (Option.some.inj hrest).symm
    | false => exact (Option.some.inj hrest).symm
  subst hds'
  unfold Datastore.get_last_fetch Datastore.save_last_fetch
  simp only [hmGet_hmInsert_self, Option.getD_some]
  exact hcur

def c1wPages : List (List Message) :=
  [[{ id := 1, author := wAuthorU, timestamp := 86400 }],
   [{ id := 2, author := wAuthorU, timestamp := 172800 }]]

def c1wDs : Datastore :=
  (guildLoop Datastore.default [(5, c1wPages)] []).getD Datastore.default

/-- Witness for the amended C1 on two well-ordered one-message pages. -/
theorem c1_cursor_amended_witness :
    (∀ a ∈ c1wPages.flatten, ∀ b ∈ c1wPages.flatten,
      a.timestamp ≤ b.timestamp → a.id ≤ b.id) ∧
    List.Pairwise (fun p q => ∀ a ∈ p, ∀ b ∈ q, a.id < b.id) c1wPages ∧
    (∀ p ∈ c1wPages, p ≠ []) ∧ c1wPages ≠ [] ∧
    guildLoop Datastore.default [(5, c1wPages)] [] = some c1wDs ∧
    c1wDs.get_last_fetch 5 = (maxId c1wPages : Int) :=
  ⟨by decide, by decide, by decide, by decide, by decide,
   c1_cursor_amended Datastore.default c1wDs 5 c1wPages []
     (by decide) (by decide) (by decide) (by decide) (by decide)⟩

/-! ## Interrupt behaviour (C5) -/

def c5m1 : Message := { id := 1, author := wAuthorU, timestamp := 86400 }

def c5m2 : Message := { id := 2, author := wAuthorU, timestamp := 172800 }

def c5run : Option Datastore :=
  guildLoop Datastore.default [(5, [[c5m1], [c5m2]])] [true]

/-- C5 counterexample: the interrupt is delivered at the first page
boundary (schedule `[true]`), yet the loop goes on to fetch and process the
second page of the same channel: the persisted cursor is 2 (the second
page's message) and both messages are counted, not cursor 1 with one
message as the claim's "fetching no further pages of that channel"
requires (the source sets `interruped` but does not break the inner loop,
src/main.rs lines 139-143). -/
theorem c5_counterexample :
    c5run.map (fun ds => ds.get_last_fetch 5) = some 2 ∧
    c5run.map (fun ds => ds.userTotal 7) = some 2 ∧
    c5run.map (fun ds => ds.get_last_fetch 5) ≠ some 1 :=
  ⟨by decide, by decide, by decide⟩

/-- C5 amended: when the interrupt flag is raised during a channel, that
channel still runs to completion (every remaining page fetched and
processed), its final cursor is persisted, and no further channel is
processed — the final store is exactly the completed channel's store with
its cursor saved, with every remaining channel's state untouched. -/
theorem c5_interrupt_amended (ds : Datastore) (chId : Nat) (pages : List (List Message))
    (sched : List Bool) (rest : List (Nat × List (List Message)))
    (ds2 : Datastore) (cur : Int) (sched2 : List Bool)
    (h : chanLoop ds pages (ds.get_last_fetch chId) false sched
      = some (ds2, cur, true, sched2)) :
    guildLoop ds ((chId, pages) :: rest) sched = some (ds2.save_last_fetch chId cur) := by
  rw [guildLoop, h]
  rfl

def c5tuple : Datastore × Int × Bool × List Bool :=
  (chanLoop Datastore.default [[c5m1], [c5m2]] (Datastore.default.get_last_fetch 5)
    false [true]).getD (Datastore.default, 0, false, [])

/-- Witness for the amended C5: with a second channel queued behind the
interrupted one, the run ends at the first channel's completed state. -/
theorem c5_interrupt_amended_witness :
    chanLoop Datastore.default [[c5m1], [c5m2]] (Datastore.default.get_last_fetch 5)
      false [true] = some (c5tuple.1, c5tuple.2.1, true, c5tuple.2.2.2) ∧
    guildLoop Datastore.default [(5, [[c5m1], [c5m2]]), (6, [[c5m2]])] [true]
      = some (c5tuple.1.save_last_fetch 5 c5tuple.2.1) :=
  ⟨by decide,
   c5_interrupt_amended Datastore.default 5 [[c5m1], [c5m2]] [true] [(6, [[c5m2]])]
     c5tuple.1 c5tuple.2.1 c5tuple.2.2.2 (by decide)⟩

/-- Witness instantiation of the amended C4 at a concrete store, previous
file and failure point. -/
theorem c4_write_amended_witness :
    (Datastore.default.save_to_cache (some [9]) false (some 2)
      = Datastore.default.save_to_cache none false (some 2)) ∧
    ∃ l, (Datastore.default.save_to_cache (some [9]) false (some 2)).2 = some l ∧
      (∃ t, l ++ t = encDatastore Datastore.default) ∧
      ((Datastore.default.save_to_cache (some [9]) false (some 2)).1 = Except.ok ()
        → l = encDatastore Datastore.default) :=
  c4_write_amended Datastore.default (some [9]) none (some 2)

/-- Witness instantiation of the amended C6 at a concrete resolver. -/
theorem c6_empty_report_amended_witness :
    Datastore.default.write_out
        (fun _ => some { tag := "t", avatar_url := none, bot := false })
      = (["Username", "Category", "PFP", "1970-01-01"], [], []) :=
  c6_empty_report_amended (fun _ => some { tag := "t", avatar_url := none, bot := false })

/-- Witness instantiation of C9 at a populated store. -/
theorem c9_cache_round_trip_witness :
    (wDsAll.save_to_cache none false none).1 = Except.ok () ∧
    Datastore.load_from_cache (wDsAll.save_to_cache none false none).2 = some wDsAll :=
  c9_cache_round_trip wDsAll none
